import Mathlib

/-!
Shallow embedding of `project/emails/robustness.py` (networkx-based network
robustness simulation) and verification of its specification claims.

Modelling conventions:
* A networkx graph is a pair of a node list (dict insertion order — the
  iteration order of `graph.nodes()` and of the degree dict) and an edge
  list (undirected, simple, no self-loops, each edge recorded once).
* Python floats are modelled as rationals; every arithmetic step performed
  by the program on the inputs used here is exact (repr round-trips), so
  float tolerance becomes equality.
* A Python function that can raise is embedded with an `Option` result,
  `none` standing for an uncaught exception.
* Functions that receive a mutable argument are embedded returning a pair:
  the caller-visible final state of that argument together with the result.
  In `fail` and `attack_degree` the body first builds a fresh copy
  (`nx.Graph(src_graph)`) and only mutates the copy, so the first component
  is the unchanged source value.
* The global `random` module is modelled as a stream `Nat → Nat` of draws
  together with a cursor; `random.choice(seq)` picks index `draw % len`.
-/

namespace Robustness

/-- A networkx-style undirected simple graph: node identifiers in insertion
order, and undirected edges, each unordered pair stored once. -/
structure Graph where
  nodes : List Nat
  edges : List (Nat × Nat)
deriving DecidableEq

/-- Embeds `nx.Graph(src_graph)`: a fresh graph object with the same nodes
and edges (line 31 of robustness.py). -/
def nx_Graph (g : Graph) : Graph := ⟨g.nodes, g.edges⟩

/-- Embeds `graph.remove_node(n)`: removes the node and all incident edges. -/
def remove_node (g : Graph) (n : Nat) : Graph :=
  ⟨g.nodes.filter (fun m => m ≠ n),
   g.edges.filter (fun e => e.1 ≠ n && e.2 ≠ n)⟩

/-- Degree of a node: the number of incident edges (simple graph,
no self-loops), as produced by `dict(graph.degree())`. -/
def degree (g : Graph) (n : Nat) : Nat :=
  g.edges.countP (fun e => e.1 == n || e.2 == n)

/-- `max(degrees.values())` over the degree dict; `0` for the empty graph,
where Python raises `ValueError` instead (the raising case is handled at the
use site in `attack_degree`). -/
def maxDegree (g : Graph) : Nat :=
  (g.nodes.map (degree g)).foldr max 0

/-- `max_keys[0]`: the first node in dict (= insertion) order whose degree
equals the maximal degree. -/
def attack_target (g : Graph) : Option Nat :=
  g.nodes.find? (fun k => degree g k == maxDegree g)

/-- Embeds `attack_degree(src_graph)` (robustness.py lines 30-38): copy the
graph, remove the first node of maximal degree from the copy, return it.
First component: the caller-visible final state of `src_graph` (only the
fresh copy is ever mutated). Second component: the returned graph, `none`
when `max()` raises on an empty degree dict. -/
def attack_degree (src_graph : Graph) : Graph × Option Graph :=
  let graph := nx_Graph src_graph
  match graph.nodes with
  | [] => (src_graph, none)
  | _ :: _ =>
    match attack_target graph with
    | none => (src_graph, none)
    | some n => (src_graph, some (remove_node graph n))

/-- A call of `attack_degree` in its process context: the body of
`attack_degree` (robustness.py lines 30-38) contains no use of the global
`random` module, so the ambient random cursor (the only source of
nondeterminism in the simulation) passes through a call unchanged. -/
def attack_call (g : Graph) (randCursor : Nat) :
    (Graph × Option Graph) × Nat :=
  (attack_degree g, randCursor)

/-- Embeds `fail(src_graph)` (robustness.py lines 22-27): copy the graph,
remove a random node from the copy. The random draw `r` selects index
`r % len(nodes)` as `random.choice` does; on an empty node list Python
raises, embedded as `none`. First component: caller-visible final state of
`src_graph`. -/
def fail (src_graph : Graph) (r : Nat) : Graph × Option Graph :=
  let graph := nx_Graph src_graph
  match graph.nodes[r % graph.nodes.length]? with
  | none => (src_graph, none)
  | some n => (src_graph, some (remove_node graph n))

/-- Neighbors of `n`: the other endpoint of each incident edge, in edge
order. -/
def neighbors (g : Graph) (n : Nat) : List Nat :=
  g.edges.foldr (fun e acc =>
    if e.1 = n then e.2 :: acc
    else if e.2 = n then e.1 :: acc
    else acc) []

/-- Level-by-level breadth-first search producing the (node, distance) map
of `nx.single_source_shortest_path_length`. Fuel bounds the number of
levels; `g.nodes.length` levels always suffice for a source drawn from a
duplicate-free node list. -/
def bfs_go (g : Graph) : Nat → List Nat → List Nat → Nat → List (Nat × Nat)
  | 0, _, _, _ => []
  | _ + 1, _, [], _ => []
  | fuel + 1, visited, f0 :: fr, d =>
    let frontier := f0 :: fr
    let next := ((frontier.flatMap (neighbors g)).filter
      (fun m => ¬ visited.contains m)).dedup
    frontier.map (fun x => (x, d)) ++ bfs_go g fuel (visited ++ next) next (d + 1)

/-- Embeds `nx.single_source_shortest_path_length(graph, n)`: the map from
each node reachable from `s` to its shortest-path distance, one entry per
reachable node (unreachable nodes are absent, exactly as in networkx). -/
def single_source_shortest_path_length (g : Graph) (s : Nat) : List (Nat × Nat) :=
  bfs_go g g.nodes.length [s] [s] 0

/-- One iteration of the `for n in graph:` loop of
`diameter_and_avg_path_length` (robustness.py lines 44-48): update the
running maximum distance and add this source node's distance sum
(`total += sum(path_length.values())`) to the running total. -/
def dap_step (g : Graph) (acc : Nat × ℚ) (n : Nat) : Nat × ℚ :=
  let vals := (single_source_shortest_path_length g n).map Prod.snd
  let m := vals.foldr max 0
  (if m > acc.1 then m else acc.1, acc.2 + (vals.sum : ℚ))

/-- Embeds `diameter_and_avg_path_length(graph)` (robustness.py lines
41-53): fold over the nodes accumulating the running maximum distance and
the total of all per-source distance sums; the `try/except ZeroDivisionError`
around `total / (order * (order - 1))` becomes the explicit zero test. -/
def diameter_and_avg_path_length (g : Graph) : Nat × ℚ :=
  let acc := g.nodes.foldl (dap_step g) (0, 0)
  let denom := g.nodes.length * (g.nodes.length - 1)
  (acc.1, if denom = 0 then 0 else acc.2 / (denom : ℚ))

/-- The sum, over every source node, of the values of its shortest-path
distance map: the total of all source-target distances over ordered pairs
of nodes (self pairs contribute distance 0; pairs whose target is
unreachable are absent from the map, exactly as in the source). This is the
quantity `total` accumulates in `diameter_and_avg_path_length`. -/
def sum_of_distances (g : Graph) : Nat :=
  (g.nodes.map (fun s =>
    ((single_source_shortest_path_length g s).map Prod.snd).sum)).sum

/-- Node set reachable from `s`, in breadth-first discovery order. -/
def reachable (g : Graph) (s : Nat) : List Nat :=
  (single_source_shortest_path_length g s).map Prod.fst

/-- Worker for `connected_components`: scan the nodes in order, starting a
new component at each node not already contained in an earlier one. -/
def components_go (g : Graph) : List Nat → List (List Nat) → List (List Nat)
  | [], acc => acc.reverse
  | n :: ns, acc =>
    if acc.any (fun c => c.contains n) then components_go g ns acc
    else components_go g ns (reachable g n :: acc)

/-- Embeds `nx.connected_component_subgraphs(graph)`: the connected
components, each given by its node list, in discovery order (the order the
generator yields them). -/
def connected_components (g : Graph) : List (List Nat) :=
  components_go g g.nodes []

/-- `component.size()`: the number of edges of `g` with both endpoints in
the component (the edge count of the induced subgraph). -/
def subgraph_size (g : Graph) (c : List Nat) : Nat :=
  g.edges.countP (fun e => c.contains e.1 && c.contains e.2)

/-- Insertion step of the stable descending sort by `key`: `x` moves past
exactly the elements with a strictly larger key, so among equal keys the
original (earlier-generated) element stays first, as with the stable
Python `sorted`. -/
def insertDescBy (key : List Nat → Nat) (x : List Nat) :
    List (List Nat) → List (List Nat)
  | [] => [x]
  | y :: ys => if key x < key y then y :: insertDescBy key x ys else x :: y :: ys

/-- Stable descending sort by `key`; with `key = List.length` this embeds
`sorted(components, key=len, reverse=True)` from robustness.py line 57. -/
def sortDescBy (key : List Nat → Nat) : List (List Nat) → List (List Nat)
  | [] => []
  | x :: xs => insertDescBy key x (sortDescBy key xs)

/-- Embeds `giant_component_fraction(graph)` (robustness.py lines 56-60):
sort the components by node count descending, take the first
(`components[0]` — `none` embeds the `IndexError` on an empty list), and
divide its edge count by the total node count of the whole graph. -/
def giant_component_fraction (g : Graph) : Option ℚ :=
  match sortDescBy List.length (connected_components g) with
  | [] => none
  | c :: _ => some ((subgraph_size g c : ℚ) / (g.nodes.length : ℚ))

/-- Modelled from the spec (section 4.5 wording, refinement foil for the
selection rule): take the component with the most EDGES, then divide its
edge count by the total node count. The source instead sorts with
`key=len`, i.e. by node count; this definition exists only to be compared
with `giant_component_fraction`. -/
def giant_component_fraction_spec (g : Graph) : Option ℚ :=
  match sortDescBy (subgraph_size g) (connected_components g) with
  | [] => none
  | c :: _ => some ((subgraph_size g c : ℚ) / (g.nodes.length : ℚ))

/-- Loop body of `robustness_by_attack` (robustness.py lines 71-79):
`n` iterations remain, `i` is the current iteration index. Each iteration
replaces the graph by `attack_degree(graph)` and, when
`i % measure_frequency == 0`, appends the three metrics. A `none` anywhere
(exhausted graph in `attack_degree`, `measure_frequency == 0` making the
modulo raise, or `IndexError` inside `giant_component_fraction`) aborts the
whole run, as an uncaught Python exception would. -/
def attack_loop (f : Nat) : Graph → Nat → Nat → Option (List ℚ × List ℚ × List ℚ)
  | _, _, 0 => some ([], [], [])
  | g, i, n + 1 =>
    match (attack_degree g).2 with
    | none => none
    | some g2 =>
      if f = 0 then none
      else if i % f = 0 then
        match giant_component_fraction g2, attack_loop f g2 (i + 1) n with
        | some q, some (ds, ps, gas) =>
          some (((diameter_and_avg_path_length g2).1 : ℚ) :: ds,
                (diameter_and_avg_path_length g2).2 :: ps,
                q :: gas)
        | _, _ => none
      else attack_loop f g2 (i + 1) n

/-- Embeds `robustness_by_attack(src_graph, nodes_to_remove,
measure_frequency)` (robustness.py lines 63-87). The observable outcome is
the triple of history series handed to `dump_history`; `none` embeds an
uncaught exception during the run. -/
def robustness_by_attack (src_graph : Graph) (nodes_to_remove f : Nat) :
    Option (List ℚ × List ℚ × List ℚ) :=
  attack_loop f src_graph 0 nodes_to_remove

/-- Inner loop of one failure-mode run (robustness.py lines 104-110):
`t` is the cursor into the random stream `rng`, `i` the iteration index,
`n` the remaining iterations. Diameter and path-length measurement is
commented out in the source, so only the giant-component series gathers
entries. Returns the series of the run and the advanced random cursor. -/
def fail_loop (rng : Nat → Nat) (f : Nat) :
    Graph → Nat → Nat → Nat → Option (List ℚ × Nat)
  | _, t, _, 0 => some ([], t)
  | g, t, i, n + 1 =>
    match (fail g (rng t)).2 with
    | none => none
    | some g2 =>
      if f = 0 then none
      else if i % f = 0 then
        match giant_component_fraction g2 with
        | none => none
        | some q =>
          match fail_loop rng f g2 (t + 1) (i + 1) n with
          | none => none
          | some (gas, t2) => some (q :: gas, t2)
      else fail_loop rng f g2 (t + 1) (i + 1) n

/-- Outer loop of `robustness_by_fail` (robustness.py lines 97-113): each of
the remaining runs starts again from `src` (the caller-visible `src_graph`,
which `fail` never mutates) and threads the random cursor. -/
def fail_runs (src : Graph) (rng : Nat → Nat) (f k : Nat) :
    Nat → Nat → Option (List (List ℚ))
  | 0, _ => some []
  | r + 1, t =>
    match fail_loop rng f src t 0 k with
    | none => none
    | some (gas, t2) =>
      match fail_runs src rng f k r t2 with
      | none => none
      | some rest => some (gas :: rest)

/-- Embeds `robustness_by_fail(src_graph, number_of_runs, nodes_to_remove,
measure_frequency)` (robustness.py lines 90-124). The observable outcome is
the list of per-run giant-component series. -/
def robustness_by_fail (src_graph : Graph) (rng : Nat → Nat)
    (number_of_runs nodes_to_remove f : Nat) : Option (List (List ℚ)) :=
  fail_runs src_graph rng f nodes_to_remove number_of_runs 0

/-- The graph after `j` iterations of `graph = attack_degree(graph)`
starting from `g` (`none` once an iteration raises): the snapshots the
attack-mode loop measures are exactly `attack_steps g j` for `j ≥ 1`. -/
def attack_steps : Graph → Nat → Option Graph
  | g, 0 => some g
  | g, j + 1 =>
    match (attack_degree g).2 with
    | none => none
    | some h2 => attack_steps h2 j

/-- The graph after `j` iterations of `graph = fail(graph)` starting from
`g` with the random cursor at `t` (each iteration consumes one draw): the
snapshots a failure-mode run measures are exactly `fail_steps rng g t j`
for `j ≥ 1`. -/
def fail_steps (rng : Nat → Nat) : Graph → Nat → Nat → Option Graph
  | g, _, 0 => some g
  | g, t, j + 1 =>
    match (fail g (rng t)).2 with
    | none => none
    | some h2 => fail_steps rng h2 (t + 1) j

/-- Embeds the attack-mode branch of `dump_history` (robustness.py lines
126-131). Modelled from the spec: `common.join_values` (whose module is not
part of the sources) writes one line of space-separated scalar values; a
text line is therefore modelled as the list of the float values it carries,
exact because Python float repr round-trips. The attack-mode file is the
three lines diameters, path lengths, giant-component fractions. -/
def dump_history_attack (diameters paths ga_fractions : List ℚ) :
    List (List ℚ) :=
  [diameters, paths, ga_fractions]

/-- Embeds the attack-file reader of `plot_robustness` (robustness.py line
144): `[float(val) for line in attack_file for val in line.split()]`
flattens every line of the file into one single series. -/
def parse_attack_file (file : List (List ℚ)) : List ℚ :=
  file.flatMap id

/-- Embeds `normalized_robustness(data)` (robustness.py lines 139-140):
divide every element by the first element. On an empty list the
comprehension never evaluates `data[0]`, so the result is `[]`; a zero
first element makes the float division raise `ZeroDivisionError` (`none`). -/
def normalized_robustness (data : List ℚ) : Option (List ℚ) :=
  match data with
  | [] => some []
  | d0 :: _ => if d0 = 0 then none else some (data.map (fun v => v / d0))

/-- The attack-mode load-and-normalize pipeline of `plot_robustness`
(robustness.py lines 143-147): parse the file, then normalize the single
flattened series by its first element. -/
def load_attack_history (file : List (List ℚ)) : Option (List ℚ) :=
  normalized_robustness (parse_attack_file file)

/-! ### Concrete graphs used to settle the claims -/

/-- The path graph on three nodes with edges 1-2 and 2-3. -/
def path3 : Graph := ⟨[1, 2, 3], [(1, 2), (2, 3)]⟩

/-- Two components: a path 1-2-3 (3 nodes, 2 edges) and an edge 4-5
(2 nodes, 1 edge); 5 nodes in total. -/
def twoCompGraph : Graph := ⟨[1, 2, 3, 4, 5], [(1, 2), (2, 3), (4, 5)]⟩

/-- Two components: a path on 5 nodes (5 nodes, 4 edges) and a complete
graph on 4 nodes (4 nodes, 6 edges); the component with the most nodes is
not the component with the most edges. -/
def pathPlusClique : Graph :=
  ⟨[1, 2, 3, 4, 5, 6, 7, 8, 9],
   [(1, 2), (2, 3), (3, 4), (4, 5), (6, 7), (6, 8), (6, 9), (7, 8), (7, 9), (8, 9)]⟩

/-- A single edge between two nodes. -/
def path2 : Graph := ⟨[1, 2], [(1, 2)]⟩

/-- The triangle graph. -/
def triangle : Graph := ⟨[1, 2, 3], [(1, 2), (1, 3), (2, 3)]⟩

/-- The graph with no nodes and no edges. -/
def emptyGraph : Graph := ⟨[], []⟩

/-- A graph with a single isolated node. -/
def singleNode : Graph := ⟨[7], []⟩

/-! ### Helper lemmas -/

theorem nx_Graph_eq (g : Graph) : nx_Graph g = g := rfl

theorem fail_fst (g : Graph) (r : Nat) : (fail g r).1 = g := by
  unfold fail
  dsimp only
  split <;> rfl

theorem attack_degree_fst (g : Graph) : (attack_degree g).1 = g := by
  unfold attack_degree
  dsimp only
  split
  · rfl
  · split <;> rfl

theorem attack_degree_nil (g : Graph) (h : g.nodes = []) :
    (attack_degree g).2 = none := by
  unfold attack_degree
  dsimp only
  split
  · rfl
  · rename_i heq
    rw [nx_Graph_eq] at heq
    rw [h] at heq
    cases heq

theorem foldr_max_mem : ∀ (l : List Nat), l ≠ [] → l.foldr max 0 ∈ l := by
  intro l
  induction l with
  | nil => intro h; exact absurd rfl h
  | cons a l ih =>
    intro _
    cases l with
    | nil => simp
    | cons b t =>
      rcases max_choice a ((b :: t).foldr max 0) with h | h
      · simp only [List.foldr_cons] at *
        rw [h]
        exact List.mem_cons_self a _
      · simp only [List.foldr_cons] at *
        rw [h]
        exact List.mem_cons_of_mem a (ih (by simp))

theorem maxDegree_attained (g : Graph) (h : g.nodes ≠ []) :
    ∃ n ∈ g.nodes, degree g n = maxDegree g := by
  have hmem : (g.nodes.map (degree g)).foldr max 0 ∈ g.nodes.map (degree g) :=
    foldr_max_mem _ (by simpa using h)
  rcases List.mem_map.mp hmem with ⟨n, hn, hd⟩
  exact ⟨n, hn, by simpa [maxDegree] using hd⟩

theorem attack_target_exists (g : Graph) (h : g.nodes ≠ []) :
    ∃ n, attack_target g = some n ∧ n ∈ g.nodes := by
  rcases maxDegree_attained g h with ⟨n, hn, hd⟩
  have hsome : (g.nodes.find? (fun k => degree g k == maxDegree g)).isSome := by
    rw [List.find?_isSome]
    exact ⟨n, hn, by simpa using hd⟩
  rcases Option.isSome_iff_exists.mp hsome with ⟨m, hm⟩
  exact ⟨m, hm, List.mem_of_find?_eq_some hm⟩

theorem attack_degree_some_iff (g : Graph) (h : g.nodes ≠ []) :
    ∃ n, n ∈ g.nodes ∧ attack_target g = some n ∧
      (attack_degree g).2 = some (remove_node g n) := by
  rcases attack_target_exists g h with ⟨n, htgt, hmem⟩
  refine ⟨n, hmem, htgt, ?_⟩
  unfold attack_degree
  dsimp only
  split
  · rename_i heq
    rw [nx_Graph_eq] at heq
    exact absurd heq h
  · rw [nx_Graph_eq, htgt]

theorem attack_degree_some_inv (g g2 : Graph)
    (h : (attack_degree g).2 = some g2) :
    ∃ n, n ∈ g.nodes ∧ g2 = remove_node g n := by
  by_cases hnil : g.nodes = []
  · rw [attack_degree_nil g hnil] at h
    cases h
  · rcases attack_degree_some_iff g hnil with ⟨n, hmem, _, hval⟩
    rw [hval] at h
    exact ⟨n, hmem, (Option.some_injective _ h).symm⟩

theorem length_filter_ne (l : List Nat) (n : Nat) (hnd : l.Nodup) (hm : n ∈ l) :
    (l.filter (fun m => m ≠ n)).length = l.length - 1 := by
  induction l with
  | nil => cases hm
  | cons a t ih =>
    rcases List.nodup_cons.mp hnd with ⟨hna, hnt⟩
    by_cases ha : a = n
    · subst ha
      have hfa : t.filter (fun m => m ≠ a) = t :=
        List.filter_eq_self.mpr (fun m hmt => by
          simp only [decide_eq_true_eq]
          intro hcontra
          exact hna (hcontra ▸ hmt))
      simp only [List.filter_cons, hfa]
      simp only [decide_eq_true_eq, List.length_cons]
      rw [if_neg (by simp)]
      omega
    · have hmt : n ∈ t := by
        rcases List.mem_cons.mp hm with h | h
        · exact absurd h.symm ha
        · exact h
      have hlt : 0 < t.length := List.length_pos.mpr (List.ne_nil_of_mem hmt)
      have := ih hnt hmt
      simp only [List.filter_cons, decide_eq_true_eq]
      rw [if_pos ha]
      simp only [List.length_cons]
      omega

theorem remove_node_nodes (g : Graph) (n : Nat) :
    (remove_node g n).nodes = g.nodes.filter (fun m => m ≠ n) := rfl

theorem remove_node_count (g : Graph) (n : Nat) (hnd : g.nodes.Nodup)
    (hm : n ∈ g.nodes) :
    (remove_node g n).nodes.length = g.nodes.length - 1 := by
  rw [remove_node_nodes]
  exact length_filter_ne g.nodes n hnd hm

theorem remove_node_nodup (g : Graph) (n : Nat) (hnd : g.nodes.Nodup) :
    (remove_node g n).nodes.Nodup := by
  rw [remove_node_nodes]
  exact hnd.filter _

theorem attack_loop_exhausts : ∀ (n : Nat) (g : Graph) (i f : Nat),
    g.nodes.Nodup → g.nodes.length < n → attack_loop f g i n = none := by
  intro n
  induction n with
  | zero => intro g i f _ h; cases h
  | succ m ih =>
    intro g i f hnd hlen
    by_cases hnil : g.nodes = []
    · unfold attack_loop
      rw [attack_degree_nil g hnil]
    · rcases attack_degree_some_iff g hnil with ⟨a, hmem, _, hval⟩
      have hnd2 : (remove_node g a).nodes.Nodup := remove_node_nodup g a hnd
      have hcount : (remove_node g a).nodes.length = g.nodes.length - 1 :=
        remove_node_count g a hnd hmem
      have hpos : 0 < g.nodes.length :=
        List.length_pos.mpr hnil
      have hlen2 : (remove_node g a).nodes.length < m := by omega
      have hrec := ih (remove_node g a) (i + 1) f hnd2 hlen2
      unfold attack_loop
      rw [hval]
      dsimp only
      by_cases hf : f = 0
      · rw [if_pos hf]
      · rw [if_neg hf]
        by_cases hmod : i % f = 0
        · rw [if_pos hmod, hrec]
          split
          · rename_i heq
            cases heq
          · rfl
        · rw [if_neg hmod]
          exact hrec

theorem sortDescBy_head (key : List Nat → Nat) :
    ∀ (l : List (List Nat)), l ≠ [] →
      ∃ c cs, sortDescBy key l = c :: cs ∧ c ∈ l ∧ ∀ y ∈ l, key y ≤ key c := by
  intro l
  induction l with
  | nil => intro h; exact absurd rfl h
  | cons x xs ih =>
    intro _
    cases xs with
    | nil =>
      exact ⟨x, [], rfl, List.mem_cons_self x [], by
        intro y hy
        rcases List.mem_cons.mp hy with h | h
        · rw [h]
        · cases h⟩
    | cons b t =>
      rcases ih (by simp) with ⟨c, cs, hsort, hmem, hbound⟩
      by_cases hlt : key x < key c
      · refine ⟨c, insertDescBy key x cs, ?_, List.mem_cons_of_mem x hmem, ?_⟩
        · show insertDescBy key x (sortDescBy key (b :: t)) = _
          rw [hsort]
          simp only [insertDescBy]
          rw [if_pos hlt]
        · intro y hy
          rcases List.mem_cons.mp hy with h | h
          · rw [h]; exact le_of_lt hlt
          · exact hbound y h
      · refine ⟨x, c :: cs, ?_, List.mem_cons_self x _, ?_⟩
        · show insertDescBy key x (sortDescBy key (b :: t)) = _
          rw [hsort]
          simp only [insertDescBy]
          rw [if_neg hlt]
        · intro y hy
          rcases List.mem_cons.mp hy with h | h
          · rw [h]
          · exact le_trans (hbound y h) (le_of_not_lt hlt)

theorem components_go_ne_nil (g : Graph) :
    ∀ (l : List Nat) (acc : List (List Nat)), acc ≠ [] →
      components_go g l acc ≠ [] := by
  intro l
  induction l with
  | nil =>
    intro acc hacc
    simpa [components_go, List.reverse_eq_nil_iff] using hacc
  | cons n ns ih =>
    intro acc hacc
    unfold components_go
    split
    · exact ih acc hacc
    · exact ih _ (by simp)

theorem connected_components_ne_nil (g : Graph) (h : g.nodes ≠ []) :
    connected_components g ≠ [] := by
  unfold connected_components
  cases hg : g.nodes with
  | nil => exact absurd hg h
  | cons n ns =>
    unfold components_go
    split
    · rename_i hany
      simp at hany
    · exact components_go_ne_nil g ns _ (by simp)

theorem dap_step_total (g : Graph) :
    ∀ (l : List Nat) (a : Nat) (b : ℚ),
      (l.foldl (dap_step g) (a, b)).2 =
        b + ((l.map (fun s =>
          (((single_source_shortest_path_length g s).map Prod.snd).sum : ℚ))).sum) := by
  intro l
  induction l with
  | nil => intro a b; simp
  | cons s t ih =>
    intro a b
    simp only [List.foldl_cons, List.map_cons, List.sum_cons]
    rw [ih]
    unfold dap_step
    dsimp only
    ring

theorem gcf_eq (g : Graph) (c : List Nat) (cs : List (List Nat)) (a b : Nat)
    (h : sortDescBy List.length (connected_components g) = c :: cs)
    (ha : subgraph_size g c = a) (hb : g.nodes.length = b) :
    giant_component_fraction g = some ((a : ℚ) / (b : ℚ)) := by
  unfold giant_component_fraction
  rw [h]
  dsimp only
  rw [ha, hb]

theorem gcf_spec_eq (g : Graph) (c : List Nat) (cs : List (List Nat))
    (a b : Nat)
    (h : sortDescBy (subgraph_size g) (connected_components g) = c :: cs)
    (ha : subgraph_size g c = a) (hb : g.nodes.length = b) :
    giant_component_fraction_spec g = some ((a : ℚ) / (b : ℚ)) := by
  unfold giant_component_fraction_spec
  rw [h]
  dsimp only
  rw [ha, hb]

theorem dap_snd_eq (g : Graph) :
    (diameter_and_avg_path_length g).2 =
      if g.nodes.length * (g.nodes.length - 1) = 0 then 0
      else (sum_of_distances g : ℚ) /
        ((g.nodes.length * (g.nodes.length - 1) : ℕ) : ℚ) := by
  unfold diameter_and_avg_path_length
  dsimp only
  by_cases hd : g.nodes.length * (g.nodes.length - 1) = 0
  · rw [if_pos hd, if_pos hd]
  · rw [if_neg hd, if_neg hd]
    congr 1
    rw [dap_step_total g g.nodes 0 0, zero_add]
    unfold sum_of_distances
    rw [Nat.cast_list_sum, List.map_map]
    rfl

/-! ### Claim theorems -/

/-- C1 counterexample: on a graph whose node-richest component (a 5-node
path, 4 edges) differs from its edge-richest component (a 4-clique, 6
edges), `giant_component_fraction` returns 4/9 — the edge count of the
component with the MOST NODES over the total node count — while the
claimed most-edges rule (`giant_component_fraction_spec`, taken from the
spec wording) would return 6/9 = 2/3. The claim is false: the source sorts
the components with `key=len`, i.e. by node count. -/
theorem giant_fraction_edge_rule_cex :
    giant_component_fraction pathPlusClique = some (4 / 9) ∧
    giant_component_fraction_spec pathPlusClique = some (2 / 3) ∧
    ¬ ((4 : ℚ) / 9 = 2 / 3) := by
  refine ⟨?_, ?_, by norm_num⟩
  · rw [gcf_eq pathPlusClique [1, 2, 3, 4, 5] [[6, 7, 8, 9]] 4 9
      (by decide) (by decide) (by decide)]
    norm_num
  · rw [gcf_spec_eq pathPlusClique [6, 7, 8, 9] [[1, 2, 3, 4, 5]] 6 9
      (by decide) (by decide) (by decide)]
    norm_num

/-- C1 (amended): for every graph with at least one node,
`giant_component_fraction` selects a connected component of maximal NODE
count (the head of the stable descending sort by `len`) and returns that
component's edge count divided by the total node count of the whole graph;
on the 3-node/2-edge plus 2-node/1-edge example it returns 2/5 (see the
witness). -/
theorem giant_fraction_node_rule (g : Graph) (h : g.nodes ≠ []) :
    ∃ c, c ∈ connected_components g ∧
      (∀ c2 ∈ connected_components g, c2.length ≤ c.length) ∧
      giant_component_fraction g =
        some ((subgraph_size g c : ℚ) / (g.nodes.length : ℚ)) := by
  rcases sortDescBy_head List.length (connected_components g)
      (connected_components_ne_nil g h) with ⟨c, cs, hsort, hmem, hbound⟩
  refine ⟨c, hmem, hbound, ?_⟩
  unfold giant_component_fraction
  rw [hsort]

/-- Witness for C1: the amended rule instantiated on the two-component
example graph of the claim, which indeed yields 2/5. -/
theorem giant_fraction_node_rule_witness :
    twoCompGraph.nodes ≠ [] ∧
    (∃ c, c ∈ connected_components twoCompGraph ∧
      (∀ c2 ∈ connected_components twoCompGraph, c2.length ≤ c.length) ∧
      giant_component_fraction twoCompGraph =
        some ((subgraph_size twoCompGraph c : ℚ) /
          (twoCompGraph.nodes.length : ℚ))) ∧
    giant_component_fraction twoCompGraph = some (2 / 5) :=
  ⟨by decide, giant_fraction_node_rule twoCompGraph (by decide), by
    rw [gcf_eq twoCompGraph [1, 2, 3] [[4, 5]] 2 5
      (by decide) (by decide) (by decide)]
    norm_num⟩

/-- C2 counterexample: on the 2-node path graph, requesting 3 removals with
sampling cadence 2 does NOT terminate with a shorter history: at iteration
2 `attack_degree` hits an empty graph and `max()` over the empty degree
sequence raises `ValueError`, so the whole run aborts (`none`). -/
theorem robustness_attack_overrun_cex :
    robustness_by_attack path2 3 2 = none := by decide

/-- C2 (amended): for every graph with duplicate-free node list, running
the attack-mode simulation with `nodes_to_remove` greater than the node
count raises an uncaught exception once the graph is exhausted — it does
not halt early, and no history is produced. -/
theorem robustness_attack_overrun_crashes (g : Graph) (k f : Nat)
    (hnd : g.nodes.Nodup) (hk : g.nodes.length < k) :
    robustness_by_attack g k f = none := by
  unfold robustness_by_attack
  exact attack_loop_exhausts k g 0 f hnd hk

/-- Witness for C2: the amended statement applied to the 2-node path with 3
removals requested. -/
theorem robustness_attack_overrun_crashes_witness :
    path2.nodes.Nodup ∧ path2.nodes.length < 3 ∧
    robustness_by_attack path2 3 2 = none :=
  ⟨by decide, by decide,
    robustness_attack_overrun_crashes path2 3 2 (by decide) (by decide)⟩

/-- C3 counterexample: on the path 1-2-3 the function does not return
average path length 4/6: the distance total is 8 (each ordered pair once,
self distances 0), so the average is 8/6 = 4/3, not 4/6. -/
theorem path3_avg_cex :
    diameter_and_avg_path_length path3 ≠ (2, 2 / 3) := by
  intro h
  have h2 : (diameter_and_avg_path_length path3).2 = 2 / 3 := by rw [h]
  rw [dap_snd_eq] at h2
  have hs : sum_of_distances path3 = 8 := by decide
  have hl : path3.nodes.length = 3 := by decide
  rw [hs, hl] at h2
  norm_num at h2

/-- C3 (amended): on the path graph with edges 1-2 and 2-3,
`diameter_and_avg_path_length` returns diameter 2 and average path length
8/6 = 4/3 (the sum of all ordered-pair distances is 2·(1+1+2) = 8, divided
by 3·2 = 6). -/
theorem path3_diameter_avg :
    diameter_and_avg_path_length path3 = (2, 4 / 3) := by
  have h1 : (diameter_and_avg_path_length path3).1 = 2 := by decide
  have h2 : (diameter_and_avg_path_length path3).2 = 4 / 3 := by
    rw [dap_snd_eq]
    have hs : sum_of_distances path3 = 8 := by decide
    have hl : path3.nodes.length = 3 := by decide
    rw [hs, hl]
    norm_num
  calc diameter_and_avg_path_length path3
      = ((diameter_and_avg_path_length path3).1,
         (diameter_and_avg_path_length path3).2) := rfl
    _ = (2, 4 / 3) := by rw [h1, h2]

/-- C5 counterexample: on the graph with zero nodes
`giant_component_fraction` does not return 0.0. -/
theorem giant_fraction_empty_cex :
    giant_component_fraction emptyGraph ≠ some 0 := by decide

/-- C5 (amended): on the graph with zero nodes the component list is empty
and `components[0]` raises `IndexError` — embedded as `none` — before the
division is ever reached; there is no zero-node guard in the source. -/
theorem giant_fraction_empty_none :
    giant_component_fraction emptyGraph = none := by decide

/-- C6: neither removal step mutates its input: both `fail` and
`attack_degree` first build a fresh copy (`nx.Graph(src_graph)`) and remove
a node only from that copy, so the caller-visible final state of the
argument (the first component of the embedding) keeps exactly the original
node list and edge list, hence the original node and edge counts. -/
theorem removal_steps_preserve_input (g : Graph) (r : Nat) :
    (fail g r).1.nodes = g.nodes ∧ (fail g r).1.edges = g.edges ∧
    (attack_degree g).1.nodes = g.nodes ∧
    (attack_degree g).1.edges = g.edges := by
  rw [fail_fst, attack_degree_fst]
  exact ⟨rfl, rfl, rfl, rfl⟩

/-- C7: the degree-based attack is deterministic: its body never consults
the global random source, so two calls at arbitrary (and possibly
different) random cursors return equal results, and both remove the same
node — the first node in iteration order attaining the maximal degree. -/
theorem attack_degree_deterministic (g : Graph) (s1 s2 : Nat)
    (h : g.nodes ≠ []) :
    (attack_call g s1).1 = (attack_call g s2).1 ∧
    ∃ n, attack_target g = some n ∧
      ((attack_call g s1).1).2 = some (remove_node g n) ∧
      ((attack_call g s2).1).2 = some (remove_node g n) := by
  rcases attack_degree_some_iff g h with ⟨n, _, htgt, hval⟩
  exact ⟨rfl, n, htgt, hval, hval⟩

/-- Witness for C7: two calls on the triangle graph at different random
cursors. -/
theorem attack_degree_deterministic_witness :
    triangle.nodes ≠ [] ∧
    ((attack_call triangle 0).1 = (attack_call triangle 1).1 ∧
     ∃ n, attack_target triangle = some n ∧
       ((attack_call triangle 0).1).2 = some (remove_node triangle n) ∧
       ((attack_call triangle 1).1).2 = some (remove_node triangle n)) :=
  ⟨by decide, attack_degree_deterministic triangle 0 1 (by decide)⟩

/-- C9: for a non-empty series with nonzero first element,
`normalized_robustness` divides every element by the first element, so the
first output element is 1.0. The [4, 2, 1] example of the claim is checked
in the witness. -/
theorem normalized_head_one (x : ℚ) (rest : List ℚ) (hx : x ≠ 0) :
    normalized_robustness (x :: rest) =
      some ((x :: rest).map (fun v => v / x)) ∧
    ((x :: rest).map (fun v => v / x)).head? = some 1 := by
  constructor
  · unfold normalized_robustness
    dsimp only
    rw [if_neg hx]
  · simp [div_self hx]

/-- Witness for C9: `normalized_robustness([4.0, 2.0, 1.0])` is
`[1.0, 0.5, 0.25]`. -/
theorem normalized_head_one_witness :
    (4 : ℚ) ≠ 0 ∧
    (normalized_robustness ((4 : ℚ) :: [2, 1]) =
        some (((4 : ℚ) :: [2, 1]).map (fun v => v / 4)) ∧
      (((4 : ℚ) :: [2, 1]).map (fun v => v / 4)).head? = some 1) ∧
    ((4 : ℚ) :: [2, 1]).map (fun v => v / 4) = [1, 1 / 2, 1 / 4] :=
  ⟨by norm_num, normalized_head_one 4 [2, 1] (by norm_num), by norm_num⟩

/-- C4 counterexample: dumping the attack history ([2], [1], [3]) and
loading it back with the attack-mode reader does not return the dumped
series: the reader flattens the three lines into the single list [2, 1, 3]
and then divides everything by the first diameter value, yielding
[1, 1/2, 3/2]. -/
theorem dump_load_roundtrip_cex :
    load_attack_history (dump_history_attack [2] [1] [3]) ≠
      some ([2] ++ [1] ++ [3]) := by
  intro h
  have hparse : parse_attack_file (dump_history_attack [2] [1] [3]) =
      [(2 : ℚ), 1, 3] := by
    simp [parse_attack_file, dump_history_attack]
  unfold load_attack_history at h
  rw [hparse] at h
  unfold normalized_robustness at h
  dsimp only at h
  rw [if_neg (by norm_num : (2 : ℚ) ≠ 0)] at h
  simp only [List.map_cons, List.map_nil, List.cons_append, List.nil_append,
    Option.some_inj, List.cons.injEq] at h
  rcases h with ⟨h1, _⟩
  norm_num at h1

/-- C4 (amended): the raw parse step of the attack-mode reader recovers
exactly the concatenation of the three dumped series as one flat list (not
three separate series), and the full reader then divides every value of
that flat list by the first diameter entry. -/
theorem dump_parse_roundtrip (d p ga : List ℚ) :
    parse_attack_file (dump_history_attack d p ga) = d ++ p ++ ga ∧
    ∀ d0 dtl, d = d0 :: dtl → d0 ≠ 0 →
      load_attack_history (dump_history_attack d p ga) =
        some ((d ++ p ++ ga).map (fun v => v / d0)) := by
  have hparse : parse_attack_file (dump_history_attack d p ga) =
      d ++ p ++ ga := by
    simp [parse_attack_file, dump_history_attack, List.append_assoc]
  refine ⟨hparse, ?_⟩
  intro d0 dtl hd hd0
  unfold load_attack_history
  rw [hparse, hd]
  simp only [List.cons_append]
  unfold normalized_robustness
  dsimp only
  rw [if_neg hd0]

/-- Witness for C4: the amended round trip on the history ([2], [1], [3]). -/
theorem dump_parse_roundtrip_witness :
    parse_attack_file (dump_history_attack [(2 : ℚ)] [1] [3]) =
      [2] ++ [1] ++ [3] ∧
    load_attack_history (dump_history_attack [(2 : ℚ)] [1] [3]) =
      some (([(2 : ℚ)] ++ [1] ++ [3]).map (fun v => v / 2)) :=
  ⟨(dump_parse_roundtrip [2] [1] [3]).1,
   (dump_parse_roundtrip [2] [1] [3]).2 2 [] rfl (by norm_num)⟩

/-- C8: the average path length returned by `diameter_and_avg_path_length`
is 0.0 whenever the graph has at most one node (the caught
`ZeroDivisionError` case), and in general equals the sum of all
source-target shortest-path distances over ordered pairs (per-source
distance-map sums, unreachable targets absent, self distance 0) divided by
N·(N−1); in rational arithmetic the division-by-zero convention makes the
formula hold for every N. -/
theorem avg_path_length_formula (g : Graph) :
    (g.nodes.length ≤ 1 → (diameter_and_avg_path_length g).2 = 0) ∧
    (diameter_and_avg_path_length g).2 =
      (sum_of_distances g : ℚ) /
        ((g.nodes.length * (g.nodes.length - 1) : ℕ) : ℚ) := by
  constructor
  · intro hle
    rw [dap_snd_eq]
    have hd : g.nodes.length * (g.nodes.length - 1) = 0 := by
      rcases Nat.le_one_iff_eq_zero_or_eq_one.mp hle with h | h <;> rw [h]
    rw [if_pos hd]
  · rw [dap_snd_eq]
    by_cases hd : g.nodes.length * (g.nodes.length - 1) = 0
    · rw [if_pos hd, hd]
      norm_num
    · rw [if_neg hd]

/-- Witness for C8: the formula instantiated on the one-node graph. -/
theorem avg_path_length_formula_witness :
    (singleNode.nodes.length ≤ 1 ∧
      (diameter_and_avg_path_length singleNode).2 = 0) ∧
    (diameter_and_avg_path_length singleNode).2 =
      (sum_of_distances singleNode : ℚ) /
        ((singleNode.nodes.length * (singleNode.nodes.length - 1) : ℕ) : ℚ) :=
  ⟨⟨by decide, (avg_path_length_formula singleNode).1 (by decide)⟩,
   (avg_path_length_formula singleNode).2⟩

theorem attack_first_sample (g : Graph) (k f : Nat) (ds ps gas : List ℚ)
    (hk : 1 ≤ k) (hf : f ≠ 0)
    (h : robustness_by_attack g k f = some (ds, ps, gas)) :
    ∃ g2, (attack_degree g).2 = some g2 ∧
      ds.head? = some ((diameter_and_avg_path_length g2).1 : ℚ) ∧
      ps.head? = some ((diameter_and_avg_path_length g2).2) ∧
      ∃ q, giant_component_fraction g2 = some q ∧ gas.head? = some q := by
  obtain ⟨m, rfl⟩ : ∃ m, k = m + 1 := ⟨k - 1, by omega⟩
  unfold robustness_by_attack attack_loop at h
  split at h
  · exact Option.noConfusion h
  · rename_i g2 hA
    rw [if_neg hf, if_pos (Nat.zero_mod f)] at h
    split at h
    · rename_i q ds2 ps2 gas2 hgcf hrec
      rw [Option.some_inj] at h
      simp only [Prod.mk.injEq] at h
      rcases h with ⟨h1, h2, h3⟩
      refine ⟨g2, hA, ?_, ?_, q, hgcf, ?_⟩
      · rw [← h1]; rfl
      · rw [← h2]; rfl
      · rw [← h3]; rfl
    · exact Option.noConfusion h

theorem fail_runs_first_sample (src : Graph) (rng : Nat → Nat) (f k : Nat)
    (hf : f ≠ 0) (hk : 1 ≤ k) :
    ∀ (R t : Nat) (runs : List (List ℚ)),
      fail_runs src rng f k R t = some runs →
      ∀ s ∈ runs, ∃ u g2 q, (fail src (rng u)).2 = some g2 ∧
        giant_component_fraction g2 = some q ∧ s.head? = some q := by
  intro R
  induction R with
  | zero =>
    intro t runs h s hs
    unfold fail_runs at h
    rw [Option.some_inj] at h
    subst h
    cases hs
  | succ r ih =>
    intro t runs h s hs
    unfold fail_runs at h
    split at h
    · exact Option.noConfusion h
    · rename_i gas t2 hloop
      split at h
      · exact Option.noConfusion h
      · rename_i rest hrest
        rw [Option.some_inj] at h
        subst h
        rcases List.mem_cons.mp hs with hs1 | hs2
        · obtain ⟨m, rfl⟩ : ∃ m, k = m + 1 := ⟨k - 1, by omega⟩
          unfold fail_loop at hloop
          split at hloop
          · exact Option.noConfusion hloop
          · rename_i g2 hfail
            rw [if_neg hf, if_pos (Nat.zero_mod f)] at hloop
            split at hloop
            · exact Option.noConfusion hloop
            · rename_i q hgcf
              split at hloop
              · exact Option.noConfusion hloop
              · rename_i gas2 t3 hrec
                rw [Option.some_inj] at hloop
                have hgas : gas = q :: gas2 :=
                  (congrArg Prod.fst hloop).symm
                exact ⟨t, g2, q, hfail, hgcf, by rw [hs1, hgas]; rfl⟩
        · exact ih t2 rest hrest s hs2

theorem attack_steps_succ (g g2 : Graph)
    (hA : (attack_degree g).2 = some g2) (j : Nat) :
    attack_steps g (j + 1) = attack_steps g2 j := by
  conv_lhs => rw [attack_steps]
  rw [hA]

theorem attack_steps_one (g g2 : Graph)
    (hA : (attack_degree g).2 = some g2) :
    attack_steps g 1 = some g2 := by
  have h := attack_steps_succ g g2 hA 0
  simpa [attack_steps] using h

theorem fail_steps_succ (rng : Nat → Nat) (g g2 : Graph) (t : Nat)
    (hfail : (fail g (rng t)).2 = some g2) (j : Nat) :
    fail_steps rng g t (j + 1) = fail_steps rng g2 (t + 1) j := by
  conv_lhs => rw [fail_steps]
  rw [hfail]

theorem fail_steps_one (rng : Nat → Nat) (g g2 : Graph) (t : Nat)
    (hfail : (fail g (rng t)).2 = some g2) :
    fail_steps rng g t 1 = some g2 := by
  have h := fail_steps_succ rng g g2 t hfail 0
  simpa [fail_steps] using h

theorem attack_loop_all_samples :
    ∀ (n : Nat) (g : Graph) (i f : Nat) (ds ps gas : List ℚ),
      attack_loop f g i n = some (ds, ps, gas) →
      (∀ v ∈ ds, ∃ j g2, 1 ≤ j ∧ attack_steps g j = some g2 ∧
        v = ((diameter_and_avg_path_length g2).1 : ℚ)) ∧
      (∀ v ∈ ps, ∃ j g2, 1 ≤ j ∧ attack_steps g j = some g2 ∧
        v = (diameter_and_avg_path_length g2).2) ∧
      (∀ v ∈ gas, ∃ j g2, 1 ≤ j ∧ attack_steps g j = some g2 ∧
        giant_component_fraction g2 = some v) := by
  intro n
  induction n with
  | zero =>
    intro g i f ds ps gas h
    unfold attack_loop at h
    rw [Option.some_inj] at h
    simp only [Prod.mk.injEq] at h
    rcases h with ⟨h1, h2, h3⟩
    refine ⟨?_, ?_, ?_⟩ <;> intro v hv
    · rw [← h1] at hv; cases hv
    · rw [← h2] at hv; cases hv
    · rw [← h3] at hv; cases hv
  | succ m ih =>
    intro g i f ds ps gas h
    unfold attack_loop at h
    split at h
    · exact Option.noConfusion h
    · rename_i g2 hA
      by_cases hf : f = 0
      · rw [if_pos hf] at h; exact Option.noConfusion h
      · rw [if_neg hf] at h
        by_cases hmod : i % f = 0
        · rw [if_pos hmod] at h
          split at h
          · rename_i q ds2 ps2 gas2 hgcf hrec
            rw [Option.some_inj] at h
            simp only [Prod.mk.injEq] at h
            rcases h with ⟨h1, h2, h3⟩
            rcases ih g2 (i + 1) f ds2 ps2 gas2 hrec with ⟨ih1, ih2, ih3⟩
            refine ⟨?_, ?_, ?_⟩ <;> intro v hv
            · rw [← h1] at hv
              rcases List.mem_cons.mp hv with hv1 | hv2
              · exact ⟨1, g2, le_refl 1, attack_steps_one g g2 hA, hv1⟩
              · rcases ih1 v hv2 with ⟨j, g3, hj, hsteps, hval⟩
                exact ⟨j + 1, g3, by omega,
                  by rw [attack_steps_succ g g2 hA j]; exact hsteps, hval⟩
            · rw [← h2] at hv
              rcases List.mem_cons.mp hv with hv1 | hv2
              · exact ⟨1, g2, le_refl 1, attack_steps_one g g2 hA, hv1⟩
              · rcases ih2 v hv2 with ⟨j, g3, hj, hsteps, hval⟩
                exact ⟨j + 1, g3, by omega,
                  by rw [attack_steps_succ g g2 hA j]; exact hsteps, hval⟩
            · rw [← h3] at hv
              rcases List.mem_cons.mp hv with hv1 | hv2
              · exact ⟨1, g2, le_refl 1, attack_steps_one g g2 hA,
                  by rw [hv1]; exact hgcf⟩
              · rcases ih3 v hv2 with ⟨j, g3, hj, hsteps, hval⟩
                exact ⟨j + 1, g3, by omega,
                  by rw [attack_steps_succ g g2 hA j]; exact hsteps, hval⟩
          · exact Option.noConfusion h
        · rw [if_neg hmod] at h
          rcases ih g2 (i + 1) f ds ps gas h with ⟨ih1, ih2, ih3⟩
          refine ⟨?_, ?_, ?_⟩ <;> intro v hv
          · rcases ih1 v hv with ⟨j, g3, hj, hsteps, hval⟩
            exact ⟨j + 1, g3, by omega,
              by rw [attack_steps_succ g g2 hA j]; exact hsteps, hval⟩
          · rcases ih2 v hv with ⟨j, g3, hj, hsteps, hval⟩
            exact ⟨j + 1, g3, by omega,
              by rw [attack_steps_succ g g2 hA j]; exact hsteps, hval⟩
          · rcases ih3 v hv with ⟨j, g3, hj, hsteps, hval⟩
            exact ⟨j + 1, g3, by omega,
              by rw [attack_steps_succ g g2 hA j]; exact hsteps, hval⟩

theorem fail_loop_all_samples (rng : Nat → Nat) (f : Nat) :
    ∀ (n : Nat) (g : Graph) (t i : Nat) (gas : List ℚ) (t2 : Nat),
      fail_loop rng f g t i n = some (gas, t2) →
      ∀ v ∈ gas, ∃ j g2, 1 ≤ j ∧ fail_steps rng g t j = some g2 ∧
        giant_component_fraction g2 = some v := by
  intro n
  induction n with
  | zero =>
    intro g t i gas t2 h
    unfold fail_loop at h
    rw [Option.some_inj] at h
    have hgas : gas = [] := (congrArg Prod.fst h).symm
    intro v hv
    rw [hgas] at hv
    cases hv
  | succ m ih =>
    intro g t i gas t2 h
    unfold fail_loop at h
    split at h
    · exact Option.noConfusion h
    · rename_i g2 hfail
      by_cases hf : f = 0
      · rw [if_pos hf] at h; exact Option.noConfusion h
      · rw [if_neg hf] at h
        by_cases hmod : i % f = 0
        · rw [if_pos hmod] at h
          split at h
          · exact Option.noConfusion h
          · rename_i q hgcf
            split at h
            · exact Option.noConfusion h
            · rename_i gas2 t3 hrec
              rw [Option.some_inj] at h
              have hgas : gas = q :: gas2 := (congrArg Prod.fst h).symm
              intro v hv
              rw [hgas] at hv
              rcases List.mem_cons.mp hv with hv1 | hv2
              · exact ⟨1, g2, le_refl 1, fail_steps_one rng g g2 t hfail,
                  by rw [hv1]; exact hgcf⟩
              · rcases ih g2 (t + 1) (i + 1) gas2 t3 hrec v hv2 with
                  ⟨j, g3, hj, hsteps, hval⟩
                exact ⟨j + 1, g3, by omega,
                  by rw [fail_steps_succ rng g g2 t hfail j]; exact hsteps,
                  hval⟩
        · rw [if_neg hmod] at h
          intro v hv
          rcases ih g2 (t + 1) (i + 1) gas t2 h v hv with
            ⟨j, g3, hj, hsteps, hval⟩
          exact ⟨j + 1, g3, by omega,
            by rw [fail_steps_succ rng g g2 t hfail j]; exact hsteps, hval⟩

theorem fail_runs_all_samples (src : Graph) (rng : Nat → Nat) (f k : Nat) :
    ∀ (R t : Nat) (runs : List (List ℚ)),
      fail_runs src rng f k R t = some runs →
      ∀ s ∈ runs, ∀ v ∈ s, ∃ u j g2, 1 ≤ j ∧
        fail_steps rng src u j = some g2 ∧
        giant_component_fraction g2 = some v := by
  intro R
  induction R with
  | zero =>
    intro t runs h s hs
    unfold fail_runs at h
    rw [Option.some_inj] at h
    subst h
    cases hs
  | succ r ih =>
    intro t runs h s hs
    unfold fail_runs at h
    split at h
    · exact Option.noConfusion h
    · rename_i gas t2 hloop
      split at h
      · exact Option.noConfusion h
      · rename_i rest hrest
        rw [Option.some_inj] at h
        subst h
        rcases List.mem_cons.mp hs with hs1 | hs2
        · intro v hv
          rw [hs1] at hv
          rcases fail_loop_all_samples rng f k src t 0 gas t2 hloop v hv with
            ⟨j, g2, hj, hsteps, hval⟩
          exact ⟨t, j, g2, hj, hsteps, hval⟩
        · exact ih t2 rest hrest s hs2

/-- C10: in both simulation modes the first entry appended to any history
series is a metric of the graph after exactly one removal — iteration 0 is
sampled right after the first removal — and no metric of the original,
unmodified input graph is ever recorded: EVERY entry of every series is a
metric of a snapshot `attack_steps g j` (respectively `fail_steps rng src
u j`) with `j ≥ 1`, i.e. of the graph after at least one removal, because
every measurement in the loop body follows the removal of its iteration.
So normalization baselines are post-first-removal values. In failure mode
only the giant-component series gathers entries (diameter/path-length are
commented out) and each run restarts from the unmutated source graph. -/
theorem first_sample_after_first_removal :
    (∀ (g : Graph) (k f : Nat) (ds ps gas : List ℚ), 1 ≤ k → f ≠ 0 →
      robustness_by_attack g k f = some (ds, ps, gas) →
      (∃ g2, (attack_degree g).2 = some g2 ∧
        ds.head? = some ((diameter_and_avg_path_length g2).1 : ℚ) ∧
        ps.head? = some ((diameter_and_avg_path_length g2).2) ∧
        ∃ q, giant_component_fraction g2 = some q ∧ gas.head? = some q) ∧
      (∀ v ∈ ds, ∃ j g2, 1 ≤ j ∧ attack_steps g j = some g2 ∧
        v = ((diameter_and_avg_path_length g2).1 : ℚ)) ∧
      (∀ v ∈ ps, ∃ j g2, 1 ≤ j ∧ attack_steps g j = some g2 ∧
        v = (diameter_and_avg_path_length g2).2) ∧
      (∀ v ∈ gas, ∃ j g2, 1 ≤ j ∧ attack_steps g j = some g2 ∧
        giant_component_fraction g2 = some v)) ∧
    (∀ (src : Graph) (rng : Nat → Nat) (R k f : Nat)
        (runs : List (List ℚ)), 1 ≤ k → f ≠ 0 →
      robustness_by_fail src rng R k f = some runs →
      (∀ s ∈ runs, ∃ u g2 q, (fail src (rng u)).2 = some g2 ∧
        giant_component_fraction g2 = some q ∧ s.head? = some q) ∧
      (∀ s ∈ runs, ∀ v ∈ s, ∃ u j g2, 1 ≤ j ∧
        fail_steps rng src u j = some g2 ∧
        giant_component_fraction g2 = some v)) := by
  constructor
  · intro g k f ds ps gas hk hf h
    exact ⟨attack_first_sample g k f ds ps gas hk hf h,
      attack_loop_all_samples k g 0 f ds ps gas h⟩
  · intro src rng R k f runs hk hf h
    exact ⟨fail_runs_first_sample src rng f k hf hk R 0 runs h,
      fail_runs_all_samples src rng f k R 0 runs h⟩

/-- Witness for C10: one attack-mode run and one failure-mode run on the
triangle graph with one removal and cadence 1; in both, the single recorded
entry is the metric of the two-node graph left after the first removal. -/
theorem first_sample_witness :
    (robustness_by_attack triangle 1 1 = some ([1], [1], [1 / 2]) ∧
      ((∃ g2, (attack_degree triangle).2 = some g2 ∧
        ([(1 : ℚ)]).head? =
          some ((diameter_and_avg_path_length g2).1 : ℚ) ∧
        ([(1 : ℚ)]).head? = some ((diameter_and_avg_path_length g2).2) ∧
        ∃ q, giant_component_fraction g2 = some q ∧
          ([(1 : ℚ) / 2]).head? = some q) ∧
      (∀ v ∈ [(1 : ℚ)], ∃ j g2, 1 ≤ j ∧
        attack_steps triangle j = some g2 ∧
        v = ((diameter_and_avg_path_length g2).1 : ℚ)) ∧
      (∀ v ∈ [(1 : ℚ)], ∃ j g2, 1 ≤ j ∧
        attack_steps triangle j = some g2 ∧
        v = (diameter_and_avg_path_length g2).2) ∧
      (∀ v ∈ [(1 : ℚ) / 2], ∃ j g2, 1 ≤ j ∧
        attack_steps triangle j = some g2 ∧
        giant_component_fraction g2 = some v))) ∧
    (robustness_by_fail triangle (fun _ => 0) 1 1 1 = some [[1 / 2]] ∧
      ((∀ s ∈ [[(1 : ℚ) / 2]], ∃ (_u : Nat) (g2 : Graph) (q : ℚ),
        (fail triangle 0).2 = some g2 ∧
        giant_component_fraction g2 = some q ∧ s.head? = some q) ∧
      (∀ s ∈ [[(1 : ℚ) / 2]], ∀ v ∈ s, ∃ (u j : Nat) (g2 : Graph),
        1 ≤ j ∧ fail_steps (fun _ => 0) triangle u j = some g2 ∧
        giant_component_fraction g2 = some v))) := by
  have hgcf : giant_component_fraction (⟨[2, 3], [(2, 3)]⟩ : Graph) =
      some (1 / 2 : ℚ) := by
    rw [gcf_eq ⟨[2, 3], [(2, 3)]⟩ [2, 3] [] 1 2
      (by decide) (by decide) (by decide)]
    norm_num
  have hd1 : (diameter_and_avg_path_length (⟨[2, 3], [(2, 3)]⟩ : Graph)).1
      = 1 := by decide
  have hd2 : (diameter_and_avg_path_length (⟨[2, 3], [(2, 3)]⟩ : Graph)).2
      = 1 := by
    rw [dap_snd_eq]
    have hs : sum_of_distances (⟨[2, 3], [(2, 3)]⟩ : Graph) = 2 := by decide
    have hl : (Graph.mk [2, 3] [(2, 3)]).nodes.length = 2 := by decide
    rw [hs, hl]
    norm_num
  have hA : (attack_degree triangle).2 = some (⟨[2, 3], [(2, 3)]⟩ : Graph) :=
    by decide
  have hattack : robustness_by_attack triangle 1 1 =
      some ([1], [1], [(1 : ℚ) / 2]) := by
    simp only [robustness_by_attack, attack_loop, hA, hgcf]
    norm_num [hd1, hd2]
  have hfailstep : (fail triangle 0).2 = some (⟨[2, 3], [(2, 3)]⟩ : Graph) :=
    by decide
  have hfail : robustness_by_fail triangle (fun _ => 0) 1 1 1 =
      some [[(1 : ℚ) / 2]] := by
    simp only [robustness_by_fail, fail_runs, fail_loop, hfailstep, hgcf]
    norm_num
  exact ⟨⟨hattack, first_sample_after_first_removal.1 triangle 1 1
      [1] [1] [1 / 2] (le_refl 1) one_ne_zero hattack⟩,
    ⟨hfail, first_sample_after_first_removal.2 triangle (fun _ => 0) 1 1 1
      [[1 / 2]] (le_refl 1) one_ne_zero hfail⟩⟩

end Robustness
